import Mathlib

/-!
Shallow embedding of the spamsum fuzzy-hash library (src/src/lib.rs) and
verification of its specification claims.

Machine integers are modelled as `Nat` with explicit reduction modulo `2^32`
(Rust `u32` / `Wrapping<u32>`) and modulo `2^64` (Rust `usize`), following
release-profile wrapping semantics for overflowing add/sub/mul.  A Rust
remainder with divisor zero aborts in every profile; computations that can
reach such an abort, and loops that can fail to terminate, are embedded as
`Option`-valued functions where `none` models the abort / divergence.
-/

namespace SpamsumRs

/-- Reduction modulo `2^32`, the value map of Rust `u32` / `Wrapping<u32>`. -/
def u32 (a : Nat) : Nat := a % 4294967296

/-- Wrapping `u32` subtraction `a - b` (both arguments already reduced). -/
def u32sub (a b : Nat) : Nat := (4294967296 + a - b) % 4294967296

/-- Wrapping `usize` subtraction `a - b`, the release-profile value of the
`result.left_hash.len() - 1` expression at lib.rs:75. -/
def usizeSub (a b : Nat) : Nat := (18446744073709551616 + a - b) % 18446744073709551616

/-- Constant `LEFT_HASH_LENGTH` (lib.rs:5). -/
def LEFT_HASH_LENGTH : Nat := 64

/-- Constant `RIGHT_HASH_LENGTH = LEFT_HASH_LENGTH / 2` (lib.rs:6). -/
def RIGHT_HASH_LENGTH : Nat := LEFT_HASH_LENGTH / 2

/-- Constant `MIN_BLOCKSIZE` (lib.rs:7). -/
def MIN_BLOCKSIZE : Nat := 3

/-- Constant `ROLLING_WINDOW` (lib.rs:8). -/
def ROLLING_WINDOW : Nat := 7

/-- FNV prime `HASH_PRIME = 0x01000193` (lib.rs:10). -/
def HASH_PRIME : Nat := 0x01000193

/-- FNV seed `HASH_INIT = 0x28021967` (lib.rs:11). -/
def HASH_INIT : Nat := 0x28021967

/-- The fixed 64-symbol output alphabet `BASE64_CHARSET` (lib.rs:13). -/
def BASE64_CHARSET : String :=
  "ABCDEFGHIJKLMNOPQRSTUVWXYZabcdefghijklmnopqrstuvwxyz0123456789+/"

/-- Output struct `Spamsum` (lib.rs:16-20); the hash strings are modelled as
lists of characters, pushed at the tail like Rust `String::push`. -/
structure Spamsum where
  left_hash_blocksize : Nat
  left_hash : List Char
  right_hash : List Char
deriving DecidableEq

/-- The `Display` rendering `"{blocksize}:{left}:{right}"` (lib.rs:29-37). -/
def Spamsum.display (s : Spamsum) : String :=
  toString s.left_hash_blocksize ++ ":" ++ String.mk s.left_hash ++ ":" ++
    String.mk s.right_hash

/-- Options struct `SpamsumOptions` (lib.rs:50-54); `blocksize` is a `u32`
field, zero meaning automatic blocksize selection. -/
structure SpamsumOptions where
  blocksize : Nat
  ignore_whitespace : Bool
  ignore_headers : Bool
deriving DecidableEq

/-- The `Default::default()` options used by `get_spamsum` (lib.rs:57). -/
def autoOpts : SpamsumOptions := ⟨0, false, false⟩

/-- Options enabling only the header filter. -/
def headerOpts : SpamsumOptions := ⟨0, false, true⟩

/-- Index of the first occurrence of two consecutive `0x0A` bytes, the value
of `input.windows(2).position(|w| w == [0xA, 0xA])` (lib.rs:91). -/
def findTwoNewlines : List Nat → Option Nat
  | [] => none
  | a :: rest =>
    match rest with
    | [] => none
    | b :: _ =>
      if a = 10 ∧ b = 10 then some 0
      else Option.map (fun n => n + 1) (findTwoNewlines rest)

/-- The `ignore_headers` stage of `filter_input` (lib.rs:89-98): drop every
byte up to and including the first `0x0A,0x0A` pair, else leave unchanged. -/
def strip_headers (input : List Nat) : List Nat :=
  match findTwoNewlines input with
  | some p => input.drop (p + 2)
  | none => input.drop 0

/-- The whitespace bytes removed by the `ignore_whitespace` stage
(lib.rs:102). -/
def whitespaces : List Nat := [0x20, 0x9, 0xA, 0xB, 0xC, 0xD]

/-- `filter_input` (lib.rs:88-105): optional header strip followed by
optional whitespace removal, returning the filtered buffer. -/
def filter_input (input : List Nat) (options : SpamsumOptions) : List Nat :=
  let afterHeaders := if options.ignore_headers then strip_headers input else input
  if options.ignore_whitespace then
    afterHeaders.filter (fun c => !(whitespaces.contains c))
  else afterHeaders

/-- `update_hash_output` (lib.rs:185-193): compute the output symbol from the
accumulator before any reset, slide the buffer when it is at capacity, reset
the accumulator to `HASH_INIT` when strictly below capacity minus one, then
append the symbol.  Returns the new accumulator and the new output string. -/
def update_hash_output (hash_value : Nat) (hash_output : List Char)
    (hash_length : Nat) : Nat × List Char :=
  let output_index := hash_value % 64
  let pair :=
    if hash_output.length = hash_length then (hash_value, hash_output.dropLast)
    else if hash_output.length < hash_length - 1 then (HASH_INIT, hash_output)
    else (hash_value, hash_output)
  (pair.1, pair.2 ++ [BASE64_CHARSET.toList.getD output_index 'A'])

/-- Combined per-pass mutable state: the `HashState` fields (lib.rs:39-47)
together with the loop-carried `rolling_hash` and the two output strings of
the `Spamsum` under construction (lib.rs:112-126). -/
structure StepState where
  window : List Nat
  window_sum : Nat
  window_sum2 : Nat
  shift_hash : Nat
  pos : Nat
  left_hash_value : Nat
  right_hash_value : Nat
  rolling_hash : Nat
  left_hash : List Char
  right_hash : List Char
deriving DecidableEq

/-- Initial per-pass state (lib.rs:112-126). -/
def initState : StepState :=
  ⟨List.replicate 7 0, 0, 0, 0, 0, HASH_INIT, HASH_INIT, 0, [], []⟩

/-- Loop body of `get_spamsum_with_set_blocksize` for one input byte
(lib.rs:127-167).  `none` models the Rust remainder-by-zero abort, which is
reached exactly when a trigger divisor (`blocksize`, or the wrapped
`blocksize * 2`) is zero. -/
def step (blocksize : Nat) (s : StepState) (element : Nat) : Option StepState :=
  let c := element
  let rolling_pos := s.pos % ROLLING_WINDOW
  let window_sum2 := u32 (u32sub s.window_sum2 s.window_sum + ROLLING_WINDOW * c)
  let window_sum := u32 (u32sub s.window_sum (s.window.getD rolling_pos 0) + c)
  let shift_hash := Nat.xor (u32 (s.shift_hash * 32)) c
  let window := s.window.set rolling_pos element
  let pos := u32 (s.pos + 1)
  let left_hash_value := Nat.xor (u32 (s.left_hash_value * HASH_PRIME)) c
  let right_hash_value := Nat.xor (u32 (s.right_hash_value * HASH_PRIME)) c
  let rolling_hash := u32 (window_sum + window_sum2 + shift_hash)
  if blocksize = 0 then none
  else
    let lpair :=
      if u32 (rolling_hash + 1) % blocksize = 0 then
        update_hash_output left_hash_value s.left_hash LEFT_HASH_LENGTH
      else (left_hash_value, s.left_hash)
    let rbs := u32 (blocksize * 2)
    if rbs = 0 then none
    else
      let rpair :=
        if u32 (rolling_hash + 1) % rbs = 0 then
          update_hash_output right_hash_value s.right_hash RIGHT_HASH_LENGTH
        else (right_hash_value, s.right_hash)
      some ⟨window, window_sum, window_sum2, shift_hash, pos,
        lpair.1, rpair.1, rolling_hash, lpair.2, rpair.2⟩

/-- The `for element in input` loop of `get_spamsum_with_set_blocksize`
(lib.rs:127-167), threading the state through `step`. -/
def run_bytes (blocksize : Nat) (s : StepState) : List Nat → Option StepState
  | [] => some s
  | c :: rest =>
    match step blocksize s c with
    | none => none
    | some s2 => run_bytes blocksize s2 rest

/-- `get_spamsum_with_set_blocksize` (lib.rs:107-183): run the per-byte loop
from the initial state, then flush one extra output symbol into both strings
when the final `rolling_hash` is nonzero.  The Rust function's `Result` is
embedded as `Except`; `none` models a remainder-by-zero abort inside the
loop. -/
def get_spamsum_with_set_blocksize (input : List Nat) (blocksize : Nat) :
    Option (Except String Spamsum) :=
  match run_bytes blocksize initState input with
  | none => none
  | some s =>
    if s.rolling_hash ≠ 0 then
      let lp := update_hash_output s.left_hash_value s.left_hash LEFT_HASH_LENGTH
      let rp := update_hash_output s.right_hash_value s.right_hash RIGHT_HASH_LENGTH
      some (Except.ok ⟨blocksize, lp.2, rp.2⟩)
    else some (Except.ok ⟨blocksize, s.left_hash, s.right_hash⟩)

/-- Value of Rust `.unwrap()` composed over the embedded call: `some s` when
the inner call returned `Ok(s)`, `none` when it aborted or returned `Err`. -/
def unwrapOk : Option (Except String Spamsum) → Option Spamsum
  | some (Except.ok s) => some s
  | some (Except.error _) => none
  | none => none

/-- The `while` retry loop of `get_configured_spamsum` (lib.rs:74-83).  The
loop is re-entered while the blocksize exceeds `MIN_BLOCKSIZE` and
`left_hash.len() - 1` (wrapping `usize` subtraction) is below
`RIGHT_HASH_LENGTH`.  The `fuel` argument only bounds the number of
iterations; callers pass fuel strictly larger than the current blocksize,
which is proved sufficient because the blocksize strictly decreases. -/
def retry_loop (fuel : Nat) (input : List Nat) (result : Spamsum) : Option Spamsum :=
  match fuel with
  | 0 => none
  | fuel + 1 =>
    if MIN_BLOCKSIZE < result.left_hash_blocksize ∧
        usizeSub result.left_hash.length 1 < RIGHT_HASH_LENGTH then
      match unwrapOk (get_spamsum_with_set_blocksize input
          (result.left_hash_blocksize / 2)) with
      | none => none
      | some r => retry_loop fuel input r
    else some result

/-- The doubling loop of `guess_initial_blocksize` (lib.rs:195-201) in `u32`
wrapping arithmetic.  `none` models non-termination of the Rust loop: once
the wrapped blocksize reaches `0`, `blocksize * 64` stays `0 < input_length`
forever.  The fuel is irrelevant for results: terminating runs need at most
25 iterations, and diverging runs return `none` at every fuel. -/
def guessAux : Nat → Nat → Nat → Option Nat
  | 0, _, _ => none
  | fuel + 1, blocksize, input_length =>
    if u32 (blocksize * LEFT_HASH_LENGTH) < input_length then
      guessAux fuel (u32 (blocksize * 2)) input_length
    else some blocksize

/-- `guess_initial_blocksize` (lib.rs:195-201), starting from
`MIN_BLOCKSIZE`. -/
def guess_initial_blocksize (input_length : Nat) : Option Nat :=
  guessAux 64 MIN_BLOCKSIZE input_length

/-- `get_configured_spamsum` (lib.rs:61-86): filter a private copy of the
input, choose the pinned or guessed blocksize, run one pass, and in auto
mode keep halving and re-running while the retry condition holds.  `none`
models a Rust abort or non-termination on the corresponding path. -/
def get_configured_spamsum (input : List Nat) (options : SpamsumOptions) :
    Option (Except String Spamsum) :=
  let valid_input := filter_input input options
  let chosen :=
    if 0 < options.blocksize then some options.blocksize
    else guess_initial_blocksize (u32 valid_input.length)
  match chosen with
  | none => none
  | some blocksize =>
    match unwrapOk (get_spamsum_with_set_blocksize valid_input blocksize) with
    | none => none
    | some result0 =>
      if 0 < options.blocksize then some (Except.ok result0)
      else
        match retry_loop (blocksize + 1) valid_input result0 with
        | none => none
        | some result => some (Except.ok result)

/-- `get_spamsum` (lib.rs:56-59): `get_configured_spamsum` with default
options. -/
def get_spamsum (input : List Nat) : Option (Except String Spamsum) :=
  get_configured_spamsum input autoOpts

/-- Bytes of an ASCII string, for the concrete test vectors. -/
def strBytes (s : String) : List Nat := s.toList.map Char.toNat

instance {α β : Type} [DecidableEq α] [DecidableEq β] : DecidableEq (Except α β)
  | Except.ok a, Except.ok b =>
    if h : a = b then isTrue (congrArg Except.ok h)
    else isFalse (fun hh => h (Except.ok.inj hh))
  | Except.ok _, Except.error _ => isFalse (fun hh => Except.noConfusion hh)
  | Except.error _, Except.ok _ => isFalse (fun hh => Except.noConfusion hh)
  | Except.error a, Except.error b =>
    if h : a = b then isTrue (congrArg Except.error h)
    else isFalse (fun hh => h (Except.error.inj hh))

set_option maxRecDepth 100000

/-- C1: the three concrete scenarios of the specification reproduce exactly:
`"test"` with auto blocksize renders as `"3:Hn:Hn"`, the longer message with
auto blocksize renders as `"3:clclDDvWIMF/hv:cGZ/EJv"`, and the same message
with pinned blocksize 11 renders as `"11:ccsv:Iv"`. -/
theorem concrete_scenarios_reproduce :
    (unwrapOk (get_configured_spamsum (strBytes "test") autoOpts)).map Spamsum.display =
      some "3:Hn:Hn" ∧
    (unwrapOk (get_configured_spamsum
        (strBytes "Please buy my stuff\nDear Sir or Madam\n") autoOpts)).map Spamsum.display =
      some "3:clclDDvWIMF/hv:cGZ/EJv" ∧
    (unwrapOk (get_configured_spamsum
        (strBytes "Please buy my stuff\nDear Sir or Madam\n") ⟨11, false, false⟩)).map
      Spamsum.display = some "11:ccsv:Iv" :=
  ⟨by decide, by decide, by decide⟩

lemma findTwoNewlines_cons2 (a b : Nat) (t : List Nat) :
    findTwoNewlines (a :: b :: t) =
      if a = 10 ∧ b = 10 then some 0
      else Option.map (fun n => n + 1) (findTwoNewlines (b :: t)) := rfl

lemma findTwoNewlines_some_bound :
    ∀ (x : List Nat) (p : Nat), findTwoNewlines x = some p → p + 2 ≤ x.length := by
  intro x
  induction x with
  | nil => intro p h; cases h
  | cons a rest ih =>
    intro p h
    cases rest with
    | nil => cases h
    | cons b t =>
      rw [findTwoNewlines_cons2] at h
      by_cases hab : a = 10 ∧ b = 10
      · rw [if_pos hab] at h
        cases h
        simp only [List.length_cons]
        omega
      · rw [if_neg hab] at h
        cases hq : findTwoNewlines (b :: t) with
        | none => rw [hq] at h; cases h
        | some q =>
          rw [hq] at h
          simp only [Option.map_some'] at h
          injection h with h
          have hb := ih q hq
          simp only [List.length_cons] at hb ⊢
          omega

lemma strip_headers_some (y : List Nat) (p : Nat) (hq : findTwoNewlines y = some p) :
    strip_headers y = y.drop (p + 2) := by
  unfold strip_headers
  rw [hq]

lemma strip_headers_none (y : List Nat) (hq : findTwoNewlines y = none) :
    strip_headers y = y := by
  unfold strip_headers
  rw [hq]
  rfl

lemma strip_headers_eq_self_iff (y : List Nat) :
    strip_headers y = y ↔ findTwoNewlines y = none := by
  constructor
  · intro h
    cases hq : findTwoNewlines y with
    | none => rfl
    | some p =>
      exfalso
      have hb := findTwoNewlines_some_bound y p hq
      rw [strip_headers_some y p hq] at h
      have hlen := List.length_drop (p + 2) y
      rw [h] at hlen
      omega
  · intro h
    exact strip_headers_none y h

lemma filter_input_headerOpts (x : List Nat) :
    filter_input x headerOpts = strip_headers x := rfl

/-- C5 (amended): header stripping applied twice equals header stripping
applied once precisely when the once-stripped result contains no further
pair of consecutive `0x0A` bytes; in general the operation is not
idempotent, because the stripped remainder may itself start with a blank
line. -/
theorem strip_headers_idem_iff (x : List Nat) :
    filter_input (filter_input x headerOpts) headerOpts = filter_input x headerOpts ↔
      findTwoNewlines (filter_input x headerOpts) = none := by
  rw [filter_input_headerOpts, filter_input_headerOpts]
  exact strip_headers_eq_self_iff (strip_headers x)

/-- C5 counterexample: on the byte sequence `[97,10,10,10,10,97]` one
application of the header strip leaves `[10,10,97]`, and a second
application strips again, so applying twice differs from applying once. -/
theorem strip_headers_not_idempotent :
    filter_input (filter_input [97, 10, 10, 10, 10, 97] headerOpts) headerOpts ≠
      filter_input [97, 10, 10, 10, 10, 97] headerOpts := by decide

/-- C5 witness: a concrete instance of the amended equivalence. -/
theorem strip_headers_idem_witness :
    filter_input (filter_input [10, 10] headerOpts) headerOpts =
      filter_input [10, 10] headerOpts :=
  (strip_headers_idem_iff [10, 10]).mpr (by decide)

/-- The set of blocksize values visited by the guess loop started at
`MIN_BLOCKSIZE` under `u32` wrapping: `3·2^k` for `k ≤ 30`, then `2^31`,
then `0` forever. -/
def guessOrbit : List Nat :=
  [3, 6, 12, 24, 48, 96, 192, 384, 768, 1536, 3072, 6144, 12288, 24576, 49152,
   98304, 196608, 393216, 786432, 1572864, 3145728, 6291456, 12582912,
   25165824, 50331648, 100663296, 201326592, 402653184, 805306368, 1610612736,
   3221225472, 2147483648, 0]

lemma guessOrbit_closed : ∀ bs ∈ guessOrbit, u32 (bs * 2) ∈ guessOrbit := by decide

lemma guessOrbit_small :
    ∀ bs ∈ guessOrbit, u32 (bs * LEFT_HASH_LENGTH) ≤ 3221225472 := by decide

lemma guessAux_diverges (n : Nat) (hn : 3221225472 < n) :
    ∀ fuel bs, bs ∈ guessOrbit → guessAux fuel bs n = none := by
  intro fuel
  induction fuel with
  | zero => intro bs _; rfl
  | succ f ih =>
    intro bs hbs
    have h1 := guessOrbit_small bs hbs
    unfold guessAux
    rw [if_pos (by omega)]
    exact ih _ (guessOrbit_closed bs hbs)

lemma u32_mul64_pow (k : Nat) (hk : k ≤ 24) :
    u32 ((3 * 2 ^ k) * LEFT_HASH_LENGTH) = 3 * 2 ^ (k + 6) := by
  have hpow : (3 * 2 ^ k) * LEFT_HASH_LENGTH = 3 * 2 ^ (k + 6) := by
    unfold LEFT_HASH_LENGTH
    rw [pow_add]
    ring
  have hle : (2 : Nat) ^ (k + 6) ≤ 2 ^ 30 := Nat.pow_le_pow_right (by norm_num) (by omega)
  unfold u32
  rw [hpow]
  exact Nat.mod_eq_of_lt (by omega)

lemma u32_double_pow (k : Nat) (hk : k ≤ 24) :
    u32 ((3 * 2 ^ k) * 2) = 3 * 2 ^ (k + 1) := by
  have hpow : (3 * 2 ^ k) * 2 = 3 * 2 ^ (k + 1) := by
    rw [pow_succ]
    ring
  have hle : (2 : Nat) ^ (k + 1) ≤ 2 ^ 25 := Nat.pow_le_pow_right (by norm_num) (by omega)
  unfold u32
  rw [hpow]
  exact Nat.mod_eq_of_lt (by omega)

lemma cond_pow_lt (k : Nat) (n : Nat) (hk : k ≤ 24) (hn : n ≤ 3221225472)
    (hc : 3 * 2 ^ (k + 6) < n) : k < 24 := by
  by_contra hge
  have hk24 : k = 24 := by omega
  subst hk24
  norm_num at hc
  omega

lemma guessAux_terminates :
    ∀ fuel k n, n ≤ 3221225472 → k ≤ 24 → 25 - k ≤ fuel →
      ∃ j, k ≤ j ∧ j ≤ 24 ∧ guessAux fuel (3 * 2 ^ k) n = some (3 * 2 ^ j) := by
  intro fuel
  induction fuel with
  | zero => intro k n _ hk hf; exact absurd hf (by omega)
  | succ f ih =>
    intro k n hn hk hf
    unfold guessAux
    rw [u32_mul64_pow k hk]
    by_cases hc : 3 * 2 ^ (k + 6) < n
    · rw [if_pos hc]
      have hk24 : k < 24 := cond_pow_lt k n hk hn hc
      rw [u32_double_pow k hk]
      obtain ⟨j, hj1, hj2, hj3⟩ := ih (k + 1) n hn (by omega) (by omega)
      exact ⟨j, by omega, hj2, hj3⟩
    · rw [if_neg hc]
      exact ⟨k, le_refl k, hk, rfl⟩

lemma guessAux_lower :
    ∀ fuel k n r, n ≤ 3221225472 → k ≤ 24 →
      guessAux fuel (3 * 2 ^ k) n = some r → 3 * 2 ^ k ≤ r := by
  intro fuel
  induction fuel with
  | zero => intro k n r _ _ h; cases h
  | succ f ih =>
    intro k n r hn hk h
    unfold guessAux at h
    rw [u32_mul64_pow k hk] at h
    by_cases hc : 3 * 2 ^ (k + 6) < n
    · rw [if_pos hc] at h
      have hk24 : k < 24 := cond_pow_lt k n hk hn hc
      rw [u32_double_pow k hk] at h
      have := ih (k + 1) n r hn (by omega) h
      have hmono : (3 : Nat) * 2 ^ k ≤ 3 * 2 ^ (k + 1) :=
        Nat.mul_le_mul_left 3 (Nat.pow_le_pow_right (by norm_num) (by omega))
      omega
    · rw [if_neg hc] at h
      cases h
      exact le_refl _

lemma guessAux_mono :
    ∀ fuel k n m r r', n ≤ m → m ≤ 3221225472 → k ≤ 24 → 25 - k ≤ fuel →
      guessAux fuel (3 * 2 ^ k) n = some r → guessAux fuel (3 * 2 ^ k) m = some r' →
      r ≤ r' := by
  intro fuel
  induction fuel with
  | zero => intro k n m r r' _ _ hk hf; exact absurd hf (by omega)
  | succ f ih =>
    intro k n m r r' hnm hm hk hf h1 h2
    unfold guessAux at h1 h2
    rw [u32_mul64_pow k hk] at h1 h2
    by_cases hcm : 3 * 2 ^ (k + 6) < m
    · rw [if_pos hcm] at h2
      have hk24 : k < 24 := cond_pow_lt k m hk hm hcm
      rw [u32_double_pow k hk] at h2
      by_cases hcn : 3 * 2 ^ (k + 6) < n
      · rw [if_pos hcn] at h1
        rw [u32_double_pow k hk] at h1
        exact ih (k + 1) n m r r' hnm hm (by omega) (by omega) h1 h2
      · rw [if_neg hcn] at h1
        cases h1
        have hlow := guessAux_lower f (k + 1) m r' hm (by omega) h2
        have hmono : (3 : Nat) * 2 ^ k ≤ 3 * 2 ^ (k + 1) :=
          Nat.mul_le_mul_left 3 (Nat.pow_le_pow_right (by norm_num) (by omega))
        omega
    · have hcn : ¬ 3 * 2 ^ (k + 6) < n := by omega
      rw [if_neg hcm] at h2
      rw [if_neg hcn] at h1
      cases h1
      cases h2
      exact le_refl _

lemma min_blocksize_pow : MIN_BLOCKSIZE = 3 * 2 ^ 0 := by norm_num [MIN_BLOCKSIZE]

/-- C8 (amended): for input lengths up to `3·2^30` the guessed blocksize is
`3·2^k` with `k ≤ 24` and is monotone nondecreasing in the length; for every
length greater than `3·2^30` the `u32`-wrapping doubling loop never
terminates (it returns `none` at every fuel), so the claimed shape and
monotonicity over all of `u32` fail. -/
theorem guess_blocksize_amended :
    (∀ n, n ≤ 3221225472 → ∃ j, j ≤ 24 ∧ guess_initial_blocksize n = some (3 * 2 ^ j)) ∧
    (∀ n m r r', n ≤ m → m ≤ 3221225472 → guess_initial_blocksize n = some r →
      guess_initial_blocksize m = some r' → r ≤ r') ∧
    (∀ n fuel, 3221225472 < n → guessAux fuel MIN_BLOCKSIZE n = none) := by
  refine ⟨?_, ?_, ?_⟩
  · intro n hn
    obtain ⟨j, _, hj2, hj3⟩ := guessAux_terminates 64 0 n hn (by omega) (by omega)
    refine ⟨j, hj2, ?_⟩
    unfold guess_initial_blocksize
    rw [min_blocksize_pow]
    exact hj3
  · intro n m r r' hnm hm h1 h2
    unfold guess_initial_blocksize at h1 h2
    rw [min_blocksize_pow] at h1 h2
    exact guessAux_mono 64 0 n m r r' hnm hm (by omega) (by omega) h1 h2
  · intro n fuel hn
    exact guessAux_diverges n hn fuel MIN_BLOCKSIZE (by decide)

/-- C8 counterexample: at input length `3·2^30 + 1` the guess loop does not
return (modelled as `none`), already refuting the claimed `3·2^k` shape at a
concrete `u32` length; the second conjunct shows a much larger fuel changes
nothing. -/
theorem guess_blocksize_counterexample :
    guess_initial_blocksize 3221225473 = none ∧
      guessAux 1000 MIN_BLOCKSIZE 3221225473 = none :=
  ⟨by decide, by decide⟩

/-- C8 witness: the divergence part of the amended theorem at a concrete
length and fuel. -/
theorem guess_blocksize_witness : guessAux 5 MIN_BLOCKSIZE 3221225473 = none :=
  guess_blocksize_amended.2.2 3221225473 5 (by norm_num)

/-- C6 (amended): on every successfully processed byte, the rolling value is
the wrapping 32-bit sum of the three rolling accumulators recomputed after
the byte, and each resolution emits exactly when `(rolling_value + 1) mod B`
is zero — where the fine divisor is `blocksize` and the coarse divisor is
`blocksize * 2` reduced modulo `2^32` (equal to twice the fine blocksize
whenever the fine blocksize is below `2^31`). -/
theorem trigger_characterization_amended :
    ∀ (blocksize : Nat) (s : StepState) (c : Nat) (s2 : StepState),
      step blocksize s c = some s2 →
      s2.rolling_hash = u32 (s2.window_sum + s2.window_sum2 + s2.shift_hash) ∧
      s2.left_hash =
        (if u32 (s2.rolling_hash + 1) % blocksize = 0 then
          (update_hash_output (Nat.xor (u32 (s.left_hash_value * HASH_PRIME)) c)
            s.left_hash LEFT_HASH_LENGTH).2
        else s.left_hash) ∧
      s2.right_hash =
        (if u32 (s2.rolling_hash + 1) % u32 (blocksize * 2) = 0 then
          (update_hash_output (Nat.xor (u32 (s.right_hash_value * HASH_PRIME)) c)
            s.right_hash RIGHT_HASH_LENGTH).2
        else s.right_hash) := by
  intro bs s c s2 h
  simp only [step] at h
  split at h
  · cases h
  · split at h
    · cases h
    · injection h with h
      subst h
      refine ⟨rfl, ?_, ?_⟩
      · simp only [apply_ite Prod.snd]
      · simp only [apply_ite Prod.snd]

/-- C6 counterexample: with pinned fine blocksize `2^31 + 1` the coarse
divisor wraps to `2`, so on the byte `1` from the initial state a coarse
character is emitted even though `(rolling_value + 1)` is not divisible by
twice the fine blocksize, refuting the claim that the coarse blocksize is
exactly twice the fine one. -/
theorem coarse_blocksize_counterexample :
    step 2147483649 initState 1 =
      some ⟨[1, 0, 0, 0, 0, 0, 0], 1, 7, 1, 1, 1649278244, 671226215, 9, [], ['k']⟩ ∧
    (9 + 1) % (2147483649 * 2) ≠ 0 ∧
    (['k'] : List Char) ≠ initState.right_hash :=
  ⟨by decide, by decide, by decide⟩

/-- State reached by one `step` at blocksize 3 on the byte `0`, used by the
C6 witness. -/
def stepWitnessState : StepState :=
  ⟨[0, 0, 0, 0, 0, 0, 0], 0, 0, 0, 1, 1649278245, 1649278245, 0, [], []⟩

/-- C6 witness: the amended characterization applied at a concrete step. -/
theorem trigger_characterization_witness :
    stepWitnessState.rolling_hash =
      u32 (stepWitnessState.window_sum + stepWitnessState.window_sum2 +
        stepWitnessState.shift_hash) :=
  (trigger_characterization_amended 3 initState 0 stepWitnessState (by decide)).1

/-- C7: after the per-byte loop ends in state `s`, one extra output symbol is
flushed into both hash strings, using the current accumulator values, exactly
when the last computed rolling value is nonzero; otherwise the strings are
returned as they are.  In particular the empty input (where the loop never
runs and the rolling value is still `0`) receives no flush. -/
theorem final_flush_iff_rolling_nonzero :
    ∀ (input : List Nat) (blocksize : Nat) (s : StepState),
      run_bytes blocksize initState input = some s →
      get_spamsum_with_set_blocksize input blocksize =
        (if s.rolling_hash ≠ 0 then
          some (Except.ok ⟨blocksize,
            (update_hash_output s.left_hash_value s.left_hash LEFT_HASH_LENGTH).2,
            (update_hash_output s.right_hash_value s.right_hash RIGHT_HASH_LENGTH).2⟩)
        else some (Except.ok ⟨blocksize, s.left_hash, s.right_hash⟩)) := by
  intro input bs s h
  unfold get_spamsum_with_set_blocksize
  rw [h]

/-- C7 witness: on the empty input the loop never runs, the rolling value is
zero, no flush occurs, and both hash strings come out empty. -/
theorem final_flush_witness :
    get_spamsum_with_set_blocksize [] 5 = some (Except.ok ⟨5, [], []⟩) := by
  have h := final_flush_iff_rolling_nonzero [] 5 initState rfl
  simpa [initState] using h

lemma unwrapOk_eq_some (o : Option (Except String Spamsum)) (r : Spamsum) :
    unwrapOk o = some r ↔ o = some (Except.ok r) := by
  cases o with
  | none => simp [unwrapOk]
  | some e =>
    cases e with
    | ok s => simp [unwrapOk]
    | error msg => simp [unwrapOk]

lemma step_some (bs : Nat) (s : StepState) (c : Nat) (h0 : bs ≠ 0)
    (h2 : u32 (bs * 2) ≠ 0) : ∃ s2, step bs s c = some s2 := by
  simp only [step]
  rw [if_neg h0, if_neg h2]
  exact ⟨_, rfl⟩

lemma run_bytes_some :
    ∀ (input : List Nat) (bs : Nat) (s : StepState), bs ≠ 0 → u32 (bs * 2) ≠ 0 →
      ∃ s2, run_bytes bs s input = some s2 := by
  intro input
  induction input with
  | nil => intro bs s _ _; exact ⟨s, rfl⟩
  | cons c rest ih =>
    intro bs s h0 h2
    obtain ⟨s1, hs1⟩ := step_some bs s c h0 h2
    obtain ⟨s2, hs2⟩ := ih bs s1 h0 h2
    refine ⟨s2, ?_⟩
    simp only [run_bytes]
    rw [hs1]
    exact hs2

lemma pass_total (input : List Nat) (bs : Nat) (h0 : bs ≠ 0) (h2 : u32 (bs * 2) ≠ 0) :
    ∃ r, get_spamsum_with_set_blocksize input bs = some (Except.ok r) ∧
      r.left_hash_blocksize = bs := by
  obtain ⟨s, hs⟩ := run_bytes_some input bs initState h0 h2
  unfold get_spamsum_with_set_blocksize
  rw [hs]
  dsimp only
  by_cases hz : s.rolling_hash ≠ 0
  · rw [if_pos hz]; exact ⟨_, rfl, rfl⟩
  · rw [if_neg hz]; exact ⟨_, rfl, rfl⟩

lemma twobs_ne_zero (bs : Nat) (h0 : bs ≠ 0) (h31 : bs ≠ 2147483648)
    (hlt : bs < 4294967296) : u32 (bs * 2) ≠ 0 := by
  unfold u32
  omega

lemma retry_total :
    ∀ (fuel : Nat) (input : List Nat) (r : Spamsum),
      r.left_hash_blocksize < fuel → r.left_hash_blocksize ≠ 0 →
      r.left_hash_blocksize < 2147483648 →
      ∃ r2, retry_loop fuel input r = some r2 := by
  intro fuel
  induction fuel with
  | zero => intro input r hf _ _; exact absurd hf (by omega)
  | succ f ih =>
    intro input r hf h0 h31
    by_cases hc : MIN_BLOCKSIZE < r.left_hash_blocksize ∧
        usizeSub r.left_hash.length 1 < RIGHT_HASH_LENGTH
    · have hc3 : 3 < r.left_hash_blocksize := hc.1
      have hbs : r.left_hash_blocksize / 2 ≠ 0 := by omega
      have h2 : u32 ((r.left_hash_blocksize / 2) * 2) ≠ 0 :=
        twobs_ne_zero _ hbs (by omega) (by omega)
      obtain ⟨r1, hr1, hbs1⟩ := pass_total input (r.left_hash_blocksize / 2) hbs h2
      obtain ⟨r2, hr2⟩ := ih input r1 (by rw [hbs1]; omega) (by rw [hbs1]; exact hbs)
        (by rw [hbs1]; omega)
      refine ⟨r2, ?_⟩
      simp only [retry_loop]
      rw [if_pos hc]
      have hu : unwrapOk (get_spamsum_with_set_blocksize input
          (r.left_hash_blocksize / 2)) = some r1 := by rw [hr1]; rfl
      rw [hu]
      exact hr2
    · refine ⟨r, ?_⟩
      simp only [retry_loop]
      rw [if_neg hc]

lemma filter_input_nil (options : SpamsumOptions) : filter_input [] options = [] := by
  cases ho : options.ignore_headers <;> cases hw : options.ignore_whitespace <;>
    simp [filter_input, ho, hw, strip_headers, findTwoNewlines]

/-- C2 (amended): the computation is total and yields `Ok` provided the
pinned blocksize is a `u32` other than `2^31` and, in auto mode, the
filtered length (as `u32`) is at most `3·2^30`; outside these bounds the
remainder-by-zero abort (blocksize `2^31`, nonempty filtered input) or the
non-terminating blocksize guess make it fail to return.  The empty input
always completes with empty left and right hash strings at the pinned or
guessed blocksize. -/
theorem computation_total_amended :
    (∀ (input : List Nat) (options : SpamsumOptions),
      options.blocksize < 4294967296 → options.blocksize ≠ 2147483648 →
      (options.blocksize = 0 → u32 (filter_input input options).length ≤ 3221225472) →
      (unwrapOk (get_configured_spamsum input options)).isSome = true) ∧
    (∀ options : SpamsumOptions,
      get_configured_spamsum [] options =
        some (Except.ok
          ⟨if 0 < options.blocksize then options.blocksize else MIN_BLOCKSIZE, [], []⟩)) := by
  constructor
  · intro input options hlt h31 hauto
    simp only [get_configured_spamsum]
    by_cases hp : 0 < options.blocksize
    · rw [if_pos hp]
      dsimp only
      obtain ⟨r, hr, _⟩ := pass_total (filter_input input options) options.blocksize
        (by omega) (twobs_ne_zero _ (by omega) h31 hlt)
      have hu : unwrapOk (get_spamsum_with_set_blocksize (filter_input input options)
          options.blocksize) = some r := by rw [hr]; rfl
      rw [hu]
      dsimp only
      rw [if_pos hp]
      rfl
    · rw [if_neg hp]
      have hbz : options.blocksize = 0 := by omega
      obtain ⟨j, _, hj24, hj⟩ := guessAux_terminates 64 0
        (u32 (filter_input input options).length) (hauto hbz) (by omega) (by omega)
      have hg : guess_initial_blocksize (u32 (filter_input input options).length) =
          some (3 * 2 ^ j) := by
        unfold guess_initial_blocksize
        rw [min_blocksize_pow]
        exact hj
      rw [hg]
      dsimp only
      have hjbound : 3 * 2 ^ j ≤ 50331648 := by
        have : (2 : Nat) ^ j ≤ 2 ^ 24 := Nat.pow_le_pow_right (by norm_num) hj24
        omega
      obtain ⟨r, hr, hrbs⟩ := pass_total (filter_input input options) (3 * 2 ^ j)
        (by positivity) (twobs_ne_zero _ (by positivity) (by omega) (by omega))
      have hu : unwrapOk (get_spamsum_with_set_blocksize (filter_input input options)
          (3 * 2 ^ j)) = some r := by rw [hr]; rfl
      rw [hu]
      dsimp only
      rw [if_neg hp]
      obtain ⟨r2, hr2⟩ := retry_total (3 * 2 ^ j + 1) (filter_input input options) r
        (by rw [hrbs]; omega) (by rw [hrbs]; positivity) (by rw [hrbs]; omega)
      rw [hr2]
      rfl
  · intro options
    simp only [get_configured_spamsum]
    rw [filter_input_nil]
    by_cases hp : 0 < options.blocksize
    · rw [if_pos hp, if_pos hp]
      dsimp only
      have hpass : get_spamsum_with_set_blocksize [] options.blocksize =
          some (Except.ok ⟨options.blocksize, [], []⟩) := rfl
      have hu : unwrapOk (get_spamsum_with_set_blocksize [] options.blocksize) =
          some ⟨options.blocksize, [], []⟩ := by rw [hpass]; rfl
      rw [hu]
      dsimp only
      rw [if_pos hp]
    · rw [if_neg hp, if_neg hp]
      have hg : guess_initial_blocksize (u32 ([] : List Nat).length) = some MIN_BLOCKSIZE := rfl
      rw [hg]
      dsimp only
      have hu : unwrapOk (get_spamsum_with_set_blocksize [] MIN_BLOCKSIZE) =
          some ⟨MIN_BLOCKSIZE, [], []⟩ := rfl
      rw [hu]
      dsimp only
      rw [if_neg hp]
      rfl

/-- C2 counterexample: with pinned blocksize `2^31` and the single byte
`116`, the coarse trigger divisor wraps to zero and the Rust remainder
aborts (modelled as `none`), so the computation is not total for every
valid options struct. -/
theorem remainder_zero_abort_counterexample :
    get_configured_spamsum [116] ⟨2147483648, false, false⟩ = none := by decide

/-- C2 witness: the amended totality theorem applied at a concrete input. -/
theorem computation_total_witness :
    (unwrapOk (get_configured_spamsum [116, 101] autoOpts)).isSome = true :=
  computation_total_amended.1 [116, 101] autoOpts (by decide) (by decide)
    (fun _ => by decide)

lemma pinned_once :
    ∀ (input : List Nat) (options : SpamsumOptions), 0 < options.blocksize →
      get_configured_spamsum input options =
        Option.map Except.ok
          (unwrapOk (get_spamsum_with_set_blocksize (filter_input input options)
            options.blocksize)) := by
  intro input options hp
  simp only [get_configured_spamsum]
  rw [if_pos hp]
  dsimp only
  cases hu : unwrapOk (get_spamsum_with_set_blocksize (filter_input input options)
      options.blocksize) with
  | none => rfl
  | some r =>
    dsimp only
    rw [if_pos hp]
    rfl

lemma retry_exit :
    ∀ (fuel : Nat) (input : List Nat) (r r2 : Spamsum),
      retry_loop fuel input r = some r2 →
      ¬(MIN_BLOCKSIZE < r2.left_hash_blocksize ∧
        usizeSub r2.left_hash.length 1 < RIGHT_HASH_LENGTH) := by
  intro fuel
  induction fuel with
  | zero => intro input r r2 h; cases h
  | succ f ih =>
    intro input r r2 h
    simp only [retry_loop] at h
    by_cases hc : MIN_BLOCKSIZE < r.left_hash_blocksize ∧
        usizeSub r.left_hash.length 1 < RIGHT_HASH_LENGTH
    · rw [if_pos hc] at h
      cases hu : unwrapOk (get_spamsum_with_set_blocksize input
          (r.left_hash_blocksize / 2)) with
      | none => rw [hu] at h; cases h
      | some r1 => rw [hu] at h; exact ih input r1 r2 h
    · rw [if_neg hc] at h
      injection h with h
      subst h
      exact hc

lemma retry_step :
    ∀ (fuel : Nat) (input : List Nat) (r : Spamsum),
      MIN_BLOCKSIZE < r.left_hash_blocksize →
      usizeSub r.left_hash.length 1 < RIGHT_HASH_LENGTH →
      retry_loop (fuel + 1) input r =
        Option.bind (unwrapOk (get_spamsum_with_set_blocksize input
          (r.left_hash_blocksize / 2))) (retry_loop fuel input) := by
  intro fuel input r h1 h2
  simp only [retry_loop]
  rw [if_pos ⟨h1, h2⟩]
  cases hu : unwrapOk (get_spamsum_with_set_blocksize input
      (r.left_hash_blocksize / 2)) with
  | none => rfl
  | some r1 => rfl

lemma usize_retry_cond (l : List Char) (h : l.length ≤ 64) :
    usizeSub l.length 1 < RIGHT_HASH_LENGTH ↔ 1 ≤ l.length ∧ l.length ≤ 32 := by
  unfold usizeSub RIGHT_HASH_LENGTH LEFT_HASH_LENGTH
  omega

/-- C3 (amended): pinned mode runs the pass exactly once with no retry; in
auto mode the loop halts only in a state where the retry condition fails and
performs one halving re-run whenever it holds — but the condition compares
`left_hash.len() - 1 < 32` with wrapping `usize` subtraction, so it is
equivalent to `1 ≤ length ≤ 32`: a pass whose left hash is empty does not
retry (the claimed `length < 32` condition is wrong at length `0`, where the
subtraction underflows, and at length `32`, which does retry). -/
theorem retry_condition_amended :
    (∀ (input : List Nat) (options : SpamsumOptions), 0 < options.blocksize →
      get_configured_spamsum input options =
        Option.map Except.ok
          (unwrapOk (get_spamsum_with_set_blocksize (filter_input input options)
            options.blocksize))) ∧
    (∀ (fuel : Nat) (input : List Nat) (r r2 : Spamsum),
      retry_loop fuel input r = some r2 →
      ¬(MIN_BLOCKSIZE < r2.left_hash_blocksize ∧
        usizeSub r2.left_hash.length 1 < RIGHT_HASH_LENGTH)) ∧
    (∀ (fuel : Nat) (input : List Nat) (r : Spamsum),
      MIN_BLOCKSIZE < r.left_hash_blocksize →
      usizeSub r.left_hash.length 1 < RIGHT_HASH_LENGTH →
      retry_loop (fuel + 1) input r =
        Option.bind (unwrapOk (get_spamsum_with_set_blocksize input
          (r.left_hash_blocksize / 2))) (retry_loop fuel input)) ∧
    (∀ l : List Char, l.length ≤ 64 →
      (usizeSub l.length 1 < RIGHT_HASH_LENGTH ↔ 1 ≤ l.length ∧ l.length ≤ 32)) :=
  ⟨pinned_once, retry_exit, retry_step, usize_retry_cond⟩

/-- C3 counterexample: on 193 zero bytes in auto mode the first pass (at
guessed blocksize 6) emits nothing, and the run returns blocksize 6 with
empty hashes without retrying, although the claimed condition (blocksize
above `MIN_BLOCKSIZE` and left length below `RIGHT_HASH_LENGTH`) holds of
that result and would demand a retry down to blocksize 3. -/
theorem retry_not_taken_counterexample :
    unwrapOk (get_configured_spamsum (List.replicate 193 0) autoOpts) =
      some ⟨6, [], []⟩ ∧
    MIN_BLOCKSIZE < 6 ∧ ([] : List Char).length < RIGHT_HASH_LENGTH :=
  ⟨by decide, by decide, by decide⟩

/-- C3 witness: one halving step of the retry loop at a concrete state whose
retry condition holds. -/
theorem retry_condition_witness :
    retry_loop 1 [] ⟨6, ['a'], []⟩ =
      Option.bind (unwrapOk (get_spamsum_with_set_blocksize [] 3)) (retry_loop 0 []) :=
  retry_condition_amended.2.2.1 0 [] ⟨6, ['a'], []⟩ (by decide) (by decide)

lemma base64_getD_mem (i : Nat) (h : i < 64) :
    BASE64_CHARSET.toList.getD i 'A' ∈ BASE64_CHARSET.toList := by
  have hlen : BASE64_CHARSET.toList.length = 64 := rfl
  have hlt : i < BASE64_CHARSET.toList.length := by rw [hlen]; exact h
  rw [List.getD_eq_getElem?_getD, List.getElem?_eq_getElem hlt, Option.getD_some]
  exact List.getElem_mem hlt

/-- Joint length bound and alphabet membership for one hash output string. -/
def hashInv (l : List Char) (cap : Nat) : Prop :=
  l.length ≤ cap ∧ ∀ c ∈ l, c ∈ BASE64_CHARSET.toList

lemma hashInv_nil (cap : Nat) : hashInv [] cap :=
  ⟨Nat.zero_le cap, fun c hc => absurd hc (List.not_mem_nil c)⟩

lemma update_hash_inv (v : Nat) (l : List Char) (cap : Nat) (hcap : 1 ≤ cap)
    (h : hashInv l cap) : hashInv (update_hash_output v l cap).2 cap := by
  obtain ⟨hlen, hmem⟩ := h
  have hchar : BASE64_CHARSET.toList.getD (v % 64) 'A' ∈ BASE64_CHARSET.toList :=
    base64_getD_mem (v % 64) (Nat.mod_lt v (by norm_num))
  unfold update_hash_output hashInv
  dsimp only
  by_cases h1 : l.length = cap
  · rw [if_pos h1]
    constructor
    · rw [List.length_append, List.length_dropLast]
      simp only [List.length_singleton]
      omega
    · intro c hc
      rcases List.mem_append.mp hc with hc1 | hc2
      · exact hmem c ((List.dropLast_sublist l).subset hc1)
      · rw [List.mem_singleton] at hc2
        rw [hc2]
        exact hchar
  · rw [if_neg h1]
    have hsnd : (if l.length < cap - 1 then (HASH_INIT, l) else (v, l)).2 = l := by
      split <;> rfl
    rw [hsnd]
    constructor
    · rw [List.length_append]
      simp only [List.length_singleton]
      omega
    · intro c hc
      rcases List.mem_append.mp hc with hc1 | hc2
      · exact hmem c hc1
      · rw [List.mem_singleton] at hc2
        rw [hc2]
        exact hchar

lemma step_hash_inv (bs : Nat) (s s2 : StepState) (c : Nat)
    (h : step bs s c = some s2)
    (hl : hashInv s.left_hash LEFT_HASH_LENGTH)
    (hr : hashInv s.right_hash RIGHT_HASH_LENGTH) :
    hashInv s2.left_hash LEFT_HASH_LENGTH ∧ hashInv s2.right_hash RIGHT_HASH_LENGTH := by
  simp only [step] at h
  split at h
  · cases h
  · split at h
    · cases h
    · injection h with h
      subst h
      refine ⟨?_, ?_⟩
      · dsimp only
        split
        · exact update_hash_inv _ _ _ (by decide) hl
        · exact hl
      · dsimp only
        split
        · exact update_hash_inv _ _ _ (by decide) hr
        · exact hr

lemma run_hash_inv :
    ∀ (input : List Nat) (bs : Nat) (s s2 : StepState),
      run_bytes bs s input = some s2 →
      hashInv s.left_hash LEFT_HASH_LENGTH → hashInv s.right_hash RIGHT_HASH_LENGTH →
      hashInv s2.left_hash LEFT_HASH_LENGTH ∧ hashInv s2.right_hash RIGHT_HASH_LENGTH := by
  intro input
  induction input with
  | nil =>
    intro bs s s2 h hl hr
    injection h with h
    subst h
    exact ⟨hl, hr⟩
  | cons c rest ih =>
    intro bs s s2 h hl hr
    simp only [run_bytes] at h
    cases hs : step bs s c with
    | none => rw [hs] at h; cases h
    | some s1 =>
      rw [hs] at h
      obtain ⟨hl1, hr1⟩ := step_hash_inv bs s s1 c hs hl hr
      exact ih bs s1 s2 h hl1 hr1

lemma pass_hash_inv (input : List Nat) (bs : Nat) (r : Spamsum)
    (h : get_spamsum_with_set_blocksize input bs = some (Except.ok r)) :
    hashInv r.left_hash LEFT_HASH_LENGTH ∧ hashInv r.right_hash RIGHT_HASH_LENGTH := by
  unfold get_spamsum_with_set_blocksize at h
  cases hrb : run_bytes bs initState input with
  | none => rw [hrb] at h; cases h
  | some s =>
    rw [hrb] at h
    dsimp only at h
    obtain ⟨hl, hr⟩ := run_hash_inv input bs initState s hrb (hashInv_nil _) (hashInv_nil _)
    by_cases hz : s.rolling_hash ≠ 0
    · rw [if_pos hz] at h
      injection h with h
      injection h with h
      subst h
      exact ⟨update_hash_inv _ _ _ (by decide) hl, update_hash_inv _ _ _ (by decide) hr⟩
    · rw [if_neg hz] at h
      injection h with h
      injection h with h
      subst h
      exact ⟨hl, hr⟩

lemma retry_hash_inv :
    ∀ (fuel : Nat) (input : List Nat) (r r2 : Spamsum),
      retry_loop fuel input r = some r2 →
      hashInv r.left_hash LEFT_HASH_LENGTH ∧ hashInv r.right_hash RIGHT_HASH_LENGTH →
      hashInv r2.left_hash LEFT_HASH_LENGTH ∧ hashInv r2.right_hash RIGHT_HASH_LENGTH := by
  intro fuel
  induction fuel with
  | zero => intro input r r2 h _; cases h
  | succ f ih =>
    intro input r r2 h hinv
    simp only [retry_loop] at h
    by_cases hc : MIN_BLOCKSIZE < r.left_hash_blocksize ∧
        usizeSub r.left_hash.length 1 < RIGHT_HASH_LENGTH
    · rw [if_pos hc] at h
      cases hu : unwrapOk (get_spamsum_with_set_blocksize input
          (r.left_hash_blocksize / 2)) with
      | none => rw [hu] at h; cases h
      | some r1 =>
        rw [hu] at h
        exact ih input r1 r2 h
          (pass_hash_inv input _ r1 ((unwrapOk_eq_some _ _).mp hu))
    · rw [if_neg hc] at h
      injection h with h
      subst h
      exact hinv

/-- C4: every fuzzy hash the computation returns has a right hash of at most
32 characters, a left hash of at most 64 characters, and draws every
character of both strings from the fixed 64-symbol alphabet. -/
theorem hash_output_invariants :
    ∀ (input : List Nat) (options : SpamsumOptions) (s : Spamsum),
      unwrapOk (get_configured_spamsum input options) = some s →
      s.right_hash.length ≤ 32 ∧ s.left_hash.length ≤ 64 ∧
      (∀ ch ∈ s.left_hash, ch ∈ BASE64_CHARSET.toList) ∧
      (∀ ch ∈ s.right_hash, ch ∈ BASE64_CHARSET.toList) := by
  intro input options s h
  rw [unwrapOk_eq_some] at h
  simp only [get_configured_spamsum] at h
  cases hch : (if 0 < options.blocksize then some options.blocksize
      else guess_initial_blocksize (u32 (filter_input input options).length)) with
  | none => rw [hch] at h; cases h
  | some bs =>
    rw [hch] at h
    dsimp only at h
    cases hu : unwrapOk (get_spamsum_with_set_blocksize (filter_input input options) bs) with
    | none => rw [hu] at h; cases h
    | some r0 =>
      rw [hu] at h
      dsimp only at h
      have h0 := pass_hash_inv (filter_input input options) bs r0
        ((unwrapOk_eq_some _ _).mp hu)
      by_cases hp : 0 < options.blocksize
      · rw [if_pos hp] at h
        injection h with h
        injection h with h
        subst h
        exact ⟨h0.2.1, h0.1.1, h0.1.2, h0.2.2⟩
      · rw [if_neg hp] at h
        cases hrt : retry_loop (bs + 1) (filter_input input options) r0 with
        | none => rw [hrt] at h; cases h
        | some r2 =>
          rw [hrt] at h
          injection h with h
          injection h with h
          subst h
          have h2 := retry_hash_inv (bs + 1) (filter_input input options) r0 r2 hrt h0
          exact ⟨h2.2.1, h2.1.1, h2.1.2, h2.2.2⟩

/-- C4 witness: the invariants theorem applied to the concrete hash of
`"abc"`. -/
theorem hash_output_invariants_witness :
    (⟨3, ['u', 'G'], ['u', 'G']⟩ : Spamsum).right_hash.length ≤ 32 :=
  (hash_output_invariants (strBytes "abc") autoOpts ⟨3, ['u', 'G'], ['u', 'G']⟩
    (by decide)).1

lemma configured_shape :
    ∀ (input : List Nat) (options : SpamsumOptions) (v : Except String Spamsum),
      get_configured_spamsum input options = some v → ∃ s, v = Except.ok s := by
  intro input options v h
  simp only [get_configured_spamsum] at h
  cases hch : (if 0 < options.blocksize then some options.blocksize
      else guess_initial_blocksize (u32 (filter_input input options).length)) with
  | none => rw [hch] at h; cases h
  | some bs =>
    rw [hch] at h
    dsimp only at h
    cases hu : unwrapOk (get_spamsum_with_set_blocksize (filter_input input options) bs) with
    | none => rw [hu] at h; cases h
    | some r0 =>
      rw [hu] at h
      dsimp only at h
      by_cases hp : 0 < options.blocksize
      · rw [if_pos hp] at h
        injection h with h
        exact ⟨r0, h.symm⟩
      · rw [if_neg hp] at h
        cases hrt : retry_loop (bs + 1) (filter_input input options) r0 with
        | none => rw [hrt] at h; cases h
        | some r2 =>
          rw [hrt] at h
          injection h with h
          exact ⟨r2, h.symm⟩

/-- C9 (amended): whenever `get_configured_spamsum` returns, the result is
the `Ok` variant — the reserved `Err` is never produced.  (The universally
quantified "returns Ok" of the claim fails only because at blocksize `2^31`
with nonempty filtered input the code aborts on a zero divisor, and in auto
mode it never returns when the filtered `u32` length exceeds `3·2^30`.) -/
theorem err_never_produced :
    ∀ (input : List Nat) (options : SpamsumOptions) (e : String),
      get_configured_spamsum input options ≠ some (Except.error e) := by
  intro input options e h
  obtain ⟨s, hs⟩ := configured_shape input options (Except.error e) h
  cases hs

/-- C9 counterexample: at pinned blocksize `2^31` on the bytes `[1, 2, 3]`
the call aborts on a zero divisor (modelled as `none`), so it does not
return the `Ok` variant for every constructible options struct. -/
theorem ok_not_returned_counterexample :
    get_configured_spamsum [1, 2, 3] ⟨2147483648, false, false⟩ = none := by decide

/-- C9 witness: the amended theorem at a concrete input and error string. -/
theorem err_never_produced_witness :
    get_configured_spamsum [1] autoOpts ≠ some (Except.error "x") :=
  err_never_produced [1] autoOpts "x"

end SpamsumRs
